import Mathlib

/-!
Verification of the emojify frame transform-and-partition pipeline.

The development shallowly embeds the two JavaScript source files of the
repository (src/index.js, the grid variant, and the unnamed mask-variant
file) into Lean.  JavaScript strings are modelled as lists of characters
(`JsStr`); Jimp images are modelled by their dimensions together with the
ordered trace of Jimp operations the repository code invokes on them
(`Image`); fallible JavaScript evaluation (thrown TypeError or
ReferenceError) is modelled with `Except`.  The pixel-level effect of the
external Jimp library operations is outside the repository and outside the
claims; what the repository controls, and what the model records, is which
operation is invoked, in which order, and with which arguments - plus the
dimension bookkeeping of the geometric operations.
-/

/-- JavaScript strings, modelled as lists of characters. -/
abbrev JsStr := List Char

/-- The single-quote character, written by code so that no string literal in
this file needs to contain a quote character. -/
def quoteChar : Char := Char.ofNat 39

/-- JavaScript `String.prototype.split(sep)` for a single-character
separator: splits on every occurrence; the empty string splits to a list
holding one empty string. -/
def splitOnChar (sep : Char) : JsStr → List JsStr
  | [] => [[]]
  | a :: rest =>
    let r := splitOnChar sep rest
    if a = sep then [] :: r
    else
      match r with
      | [] => [[a]]
      | h :: t => (a :: h) :: t

/-- JavaScript `String.prototype.trim()`: drop whitespace from both ends
(modelled with the Unicode whitespace predicate on characters). -/
def jsTrim (s : JsStr) : JsStr :=
  ((s.dropWhile Char.isWhitespace).reverse.dropWhile Char.isWhitespace).reverse

/-- JavaScript `String.prototype.toLowerCase()` (ASCII case fold suffices for
the extension strings this repository compares). -/
def jsToLower (s : JsStr) : JsStr := s.map Char.toLower

/-- Numeric value of a list of decimal digit characters, most significant
first (the accumulator loop of decimal parsing). -/
def natOfDigits (ds : JsStr) : Nat :=
  ds.foldl (fun acc c => acc * 10 + (c.toNat - 48)) 0

/-- Leading-digit parse: the value of the longest digit prefix, `none` when
there is no leading digit (JavaScript NaN). -/
def leadingNat (s : JsStr) : Option Nat :=
  let ds := s.takeWhile Char.isDigit
  if ds.isEmpty then none else some (natOfDigits ds)

/-- JavaScript `parseInt` as used on mask file names: skip leading
whitespace, optional sign, then consume leading decimal digits; `none`
models NaN (no leading digit). -/
def jsParseInt (s : JsStr) : Option Int :=
  let t := s.dropWhile Char.isWhitespace
  match t with
  | '-' :: rest => (leadingNat rest).map (fun n => -(n : Int))
  | '+' :: rest => (leadingNat rest).map (fun n => (n : Int))
  | _ => (leadingNat t).map (fun n => (n : Int))

/-- Decimal numeral of a natural number, as the character list JavaScript
template interpolation produces for it. -/
def natChars (n : Nat) : JsStr :=
  if n = 0 then ['0'] else ((Nat.digits 10 n).map (fun d => Char.ofNat (48 + d))).reverse

/-- JavaScript `Number(s)` restricted to the strings the dimension parser
feeds it (pieces of a validated dimension string, so no interior
whitespace): the empty string converts to 0, a pure digit string to its
value, anything else to NaN (`none`). -/
def jsNumber (s : JsStr) : Option Nat :=
  if s.isEmpty then some 0
  else if s.all Char.isDigit then some (natOfDigits s) else none

/-- A thrown JavaScript error, tagged with the offending name. -/
inductive JsError where
  | typeError (name : JsStr)
  | referenceError (name : JsStr)
deriving DecidableEq

/-- A value stored in the `filterValues` object collected from the prompts:
either a number or a string (the flip direction select). -/
inductive FilterValue where
  | num (v : ℚ)
  | str (s : JsStr)
deriving DecidableEq

/-- One Jimp operation invoked by the repository code.  Numeric filter
arguments are `Option ℚ`: `none` models the JavaScript NaN that arises when
a missing or non-numeric filter value is divided by 100. -/
inductive Op where
  | resizeOp (mode : JsStr) (w h : Nat)
  | cropOp (x y w h : Nat)
  | brightness (v : Option ℚ)
  | contrast (v : Option ℚ)
  | opacity (v : Option ℚ)
  | rotate (v : Option ℚ)
  | posterizeOp (v : Option ℚ)
  | invert
  | greyscale
  | sepia
  | normalize
  | fade
  | flipOp (horizontal vertical : Bool)
  | maskOp (x y : Nat)
deriving DecidableEq

/-- A Jimp image: its dimensions plus the ordered trace of operations the
repository code has invoked on it.  Dimensions are maintained by the
geometric operations the repository itself performs (resize to the grid
box, crop); the dimensional effects of the external filter operations are
Jimp internals no claim depends on, because the partition code re-resizes
before any dimension is consumed. -/
structure Image where
  width : Nat
  height : Nat
  ops : List Op
deriving DecidableEq

/-- Record one further Jimp call on an image, leaving dimensions as they
are (used for the filter operations). -/
def Image.pushOp (image : Image) (o : Op) : Image :=
  ⟨image.width, image.height, image.ops ++ [o]⟩

/-- Shallow embedding of the dynamic resize call `image[mode](width, height)`
with `mode` one of the prompt values `resize` (stretch), `cover`, `contain`.
Modelled from the spec: the three resize policies are external Jimp
operations, and each returns a frame of exactly the target dimensions; the
model records the invocation and sets the dimensions accordingly. -/
def Image.applyMode (image : Image) (mode : JsStr) (w h : Nat) : Image :=
  ⟨w, h, image.ops ++ [Op.resizeOp mode w h]⟩

/-- Jimp `crop(x, y, w, h)`: the resulting image has dimensions `w` by `h`
and is the window of the source at offset `(x, y)`; the model records the
offset and size.  The source first calls `clone()` so the crop never
mutates the shared resized frame; in this functional model cloning is the
identity. -/
def Image.crop (image : Image) (x y w h : Nat) : Image :=
  ⟨w, h, image.ops ++ [Op.cropOp x y w h]⟩

/-- The mask-variant call `cloned.mask(maskImage, x, y)`: records the mask
composite.  The identity of the mask image is not consumed by any claim, so
only the offset is recorded. -/
def Image.maskAt (image : Image) (x y : Nat) : Image :=
  image.pushOp (Op.maskOp x y)

/-- The characters of the string literal `gif`. -/
def gifChars : JsStr := ['g', 'i', 'f']

/-- Source locator quote stripping, identical in src/index.js and the
mask-variant file: when the locator starts and ends with a single quote
(the OS drag-and-drop wrapping), take `substr(1, length - 2)`.  JavaScript
`substr` with a negative length yields the empty string, which the
truncated subtraction of `take` reproduces. -/
def stripQuotes (image : JsStr) : JsStr :=
  if image.head? = some quoteChar ∧ image.getLast? = some quoteChar then
    (image.drop 1).take (image.length - 2)
  else image

/-- The remote-locator test, identical in both source files: the regex
matches, anchored at the start, the literal characters h t t, an optional
p, then the literal characters s : / /; the trailing character class is
starred and so always matches.  Consequently only locators beginning with
the eight characters of the https scheme prefix (or the seven-character
htts typo variant) test as URLs. -/
def isUrl (image : JsStr) : Bool :=
  match image with
  | 'h' :: 't' :: 't' :: 'p' :: 's' :: ':' :: '/' :: '/' :: _ => true
  | 'h' :: 't' :: 't' :: 's' :: ':' :: '/' :: '/' :: _ => true
  | _ => false

/-- The supported source image extensions, in the order of the validation
regex alternation. -/
def imageExtChars : List JsStr :=
  [['p', 'n', 'g'], ['j', 'p', 'g'], ['j', 'p', 'e', 'g'],
   ['g', 'i', 'f'], ['b', 'm', 'p']]

/-- The image-locator validation of the prompts in both source files: the
regex tests whether `value.trim()` ends with a dot, one of the extension
alternatives png, jpg, jpeg, gif, bmp (the regex has no ignore-case flag,
so only lowercase matches), and an optional single trailing quote. -/
def validateImage (value : JsStr) : Bool :=
  let t := jsTrim value
  imageExtChars.any (fun e =>
    decide (('.' :: e) <:+ t) || decide (('.' :: e ++ [quoteChar]) <:+ t))

/-- The extension computation of both source files: `image.split('.').pop()`,
the last dot-separated component of the (already quote-stripped) locator. -/
def extOf (image : JsStr) : JsStr := (splitOnChar '.' image).getLastD []

namespace Emojify

/-- src/index.js: `const SIZE = 64` (the emoji cell size in pixels). -/
def SIZE : Nat := 64

/-- src/index.js dimension validation regex `DIMENSIONS_W_H_REGEX`,
anchored both ends: one or more digits, one character of the class
containing comma, pipe and x, then one or more digits.  Because the first
digit run is greedy and the class characters are not digits, the match
decomposes uniquely. -/
def matchesDimensionsWH (s : JsStr) : Bool :=
  let ds := s.takeWhile Char.isDigit
  let rest := s.dropWhile Char.isDigit
  match rest with
  | sep :: tail =>
      !ds.isEmpty && (sep = ',' || sep = '|' || sep = 'x')
        && !tail.isEmpty && tail.all Char.isDigit
  | [] => false

/-- src/index.js dimension validation regex `DIMENSIONS_N_REGEX`, anchored
both ends: one or more digits. -/
def matchesDimensionsN (s : JsStr) : Bool :=
  !s.isEmpty && s.all Char.isDigit

/-- The dimension validation of the prompts: either regex accepts. -/
def validateDimensions (s : JsStr) : Bool :=
  matchesDimensionsWH s || matchesDimensionsN s

/-- The pair `widthParts`, `heightParts` computed in `init`; `none` models a
non-number (NaN from `Number` on a piece that is not all digits, or the
undefined second element when the split produced only one piece). -/
structure GridParts where
  widthParts : Option Nat
  heightParts : Option Nat
deriving DecidableEq

/-- The dimension branch of src/index.js `init`: when the W,H regex
accepts, split the string on commas only and convert the first two pieces
with `Number`; otherwise, when the bare-number regex accepts, use the
number for both dimensions; otherwise the run errors out.  Note the split
is on the comma alone, even though validation also accepts x and pipe as
separators. -/
def parseDimensions (dimensions : JsStr) : Option GridParts :=
  if matchesDimensionsWH dimensions then
    let parts := (splitOnChar ',' dimensions).map jsNumber
    some ⟨parts.getD 0 none, parts.getD 1 none⟩
  else if matchesDimensionsN dimensions then
    match jsNumber dimensions with
    | some n => some ⟨some n, some n⟩
    | none => some ⟨none, none⟩
  else none

/-- Modelled from the external Jimp API: the dynamic lookup
`image[filter]` of the filter switch default branch consults the Jimp
image prototype.  A prototype is modelled as a partial map from method
names to the operation recorded by calling that method with no arguments;
`none` models a name bound to no method, for which `image[filter]` is
undefined and the call `image[filter]()` throws a TypeError.  The filter
chain below is parameterised over the prototype, so no theorem depends on
enumerating the full Jimp method set. -/
def JimpProto : Type := JsStr → Option Op

/-- Modelled from the external Jimp API: a concrete fragment of the Jimp
prototype used to evaluate the chain at specific names.  It holds the five
parameterless prototype methods the filter prompt can name; the real
prototype has further methods (clone, grayscale, opaque, ...), so theorems
about an unbound name take the absence as an explicit hypothesis instead
of relying on this fragment being complete, and the fragment is consulted
only at names where it agrees with the real prototype (the five entries,
and non-method names such as foo or bar). -/
def jimpPrototype : JimpProto := fun filter =>
  (([(['i', 'n', 'v', 'e', 'r', 't'], Op.invert),
     (['g', 'r', 'e', 'y', 's', 'c', 'a', 'l', 'e'], Op.greyscale),
     (['s', 'e', 'p', 'i', 'a'], Op.sepia),
     (['n', 'o', 'r', 'm', 'a', 'l', 'i', 'z', 'e'], Op.normalize),
     (['f', 'a', 'd', 'e'], Op.fade)] : List (JsStr × Op)).find?
    (fun p => p.1 = filter)).map Prod.snd

/-- The flip filter name. -/
def flipChars : JsStr := ['f', 'l', 'i', 'p']

/-- The four filter names whose numeric value is divided by 100 before the
Jimp call. -/
def brightnessChars : JsStr := ['b', 'r', 'i', 'g', 'h', 't', 'n', 'e', 's', 's']

def contrastChars : JsStr := ['c', 'o', 'n', 't', 'r', 'a', 's', 't']

def opacityChars : JsStr := ['o', 'p', 'a', 'c', 'i', 't', 'y']

def rotateChars : JsStr := ['r', 'o', 't', 'a', 't', 'e']

def posterizeChars : JsStr := ['p', 'o', 's', 't', 'e', 'r', 'i', 'z', 'e']

/-- The constructor for the divided-by-100 filter group, selected by name
(only ever applied to one of the four names of that group). -/
def numOpFor (filter : JsStr) (v : Option ℚ) : Op :=
  if filter = brightnessChars then Op.brightness v
  else if filter = contrastChars then Op.contrast v
  else if filter = opacityChars then Op.opacity v
  else Op.rotate v

/-- JavaScript numeric coercion of a looked-up filter value: a stored
number is itself; an absent value (undefined) or one of the flip strings
coerces to NaN in the arithmetic the filter cases perform. -/
def toNumber : Option FilterValue → Option ℚ
  | some (FilterValue.num v) => some v
  | _ => none

/-- One iteration of the `filters.forEach` switch in src/index.js
`applyFilters`: flip dispatches on the stored direction string (any other
value is a no-op); brightness, contrast, opacity and rotate call the Jimp
method of that name with the stored value divided by 100; posterize calls
it with the stored value unchanged; every other name falls to the dynamic
`image[filter]()` call, which looks the name up in the Jimp prototype
`proto`: a bound method is invoked with no arguments, an unbound name is
undefined and the call throws a TypeError. -/
def applyOneFilter (proto : JimpProto) (image : Image)
    (fv : JsStr → Option FilterValue) (filter : JsStr) : Except JsError Image :=
  if filter = flipChars then
    match fv filter with
    | some (FilterValue.str s) =>
      if s = ['h', 'o', 'r', 'i', 'z', 'o', 'n', 't', 'a', 'l'] then
        Except.ok (image.pushOp (Op.flipOp true false))
      else if s = ['v', 'e', 'r', 't', 'i', 'c', 'a', 'l'] then
        Except.ok (image.pushOp (Op.flipOp false true))
      else if s = ['b', 'o', 't', 'h'] then
        Except.ok (image.pushOp (Op.flipOp true true))
      else Except.ok image
    | _ => Except.ok image
  else if filter = brightnessChars ∨ filter = contrastChars
      ∨ filter = opacityChars ∨ filter = rotateChars then
    Except.ok (image.pushOp (numOpFor filter ((toNumber (fv filter)).map (fun v => v / 100))))
  else if filter = posterizeChars then
    Except.ok (image.pushOp (Op.posterizeOp (toNumber (fv filter))))
  else
    match proto filter with
    | some op => Except.ok (image.pushOp op)
    | none => Except.error (JsError.typeError filter)

/-- The six filter names given an explicit case by the `applyFilters`
switch; every other selected name falls through to the dynamic
`image[filter]()` default branch. -/
def switchCaseNames : List JsStr :=
  [flipChars, brightnessChars, contrastChars, opacityChars,
   rotateChars, posterizeChars]

/-- src/index.js `applyFilters(image, filters, filterValues)`: when the
filter list is present and non-empty, apply each selected filter in list
order; a thrown error aborts the chain (the JavaScript `forEach` does not
catch). -/
def applyFilters (proto : JimpProto) (image : Image)
    (filters : Option (List JsStr)) (fv : JsStr → Option FilterValue) :
    Except JsError Image :=
  match filters with
  | some fs =>
    if fs.length ≠ 0 then
      fs.foldlM (fun img f => applyOneFilter proto img fv f) image
    else Except.ok image
  | none => Except.ok image

/-- src/index.js `splitFrame(image, { widthParts, heightParts }, ext, mode)`:
resize the frame to `widthParts*SIZE` by `heightParts*SIZE` with the chosen
resize policy, then iterate `y` from 0 to `heightParts - 1` (outer) and `x`
from 0 to `widthParts - 1` (inner), cloning and cropping a `SIZE` by `SIZE`
window at offset `(x*SIZE, y*SIZE)`, posterizing the tile to 15 levels when
`ext === 'gif'`, and pushing the tiles in iteration order. -/
def splitFrame (image : Image) (widthParts heightParts : Nat) (ext mode : JsStr) :
    List Image :=
  let width := widthParts * SIZE
  let height := heightParts * SIZE
  let resized := image.applyMode mode width height
  ((List.range heightParts).map (fun y =>
    (List.range widthParts).map (fun x =>
      let cloned := resized.crop (x * SIZE) (y * SIZE) SIZE SIZE
      if ext = gifChars then cloned.pushOp (Op.posterizeOp (some 15)) else cloned))).flatten

/-- The tile a gif-aware partition step emits for the cell at column `x`,
row `y`: the crop of the resized frame at offset `(x*SIZE, y*SIZE)`,
posterized to 15 levels when the extension is `gif`. -/
def tileAt (image : Image) (widthParts heightParts : Nat) (ext mode : JsStr)
    (x y : Nat) : Image :=
  let resized := image.applyMode mode (widthParts * SIZE) (heightParts * SIZE)
  let cloned := resized.crop (x * SIZE) (y * SIZE) SIZE SIZE
  if ext = gifChars then cloned.pushOp (Op.posterizeOp (some 15)) else cloned

/-- One demultiplexed source frame of the animated branch: the decoded
raster (a Jimp image) and the `frameInfo` delay recorded in the gif
container (centiseconds). -/
structure SrcFrame where
  img : Image
  delay : Int
deriving DecidableEq

/-- The accumulator initialisation of the animated branch: one empty tile
sequence per grid cell (`widthParts * heightParts` pushes of `[]`). -/
def emptyGifs (wp hp : Nat) : List (List (Image × Int)) :=
  List.replicate (wp * hp) []

/-- The inner loop of the animated branch: for each index `j` below the
tile-list length, push `(frameParts[j], frameInfo)` onto `gifs[j]`.  The
tile list and the accumulator always have the same length
`widthParts * heightParts`, so iterating over the accumulator indices is
the same loop. -/
def pushFrameParts (gifs : List (List (Image × Int))) (parts : List Image)
    (d : Int) : List (List (Image × Int)) :=
  gifs.mapIdx (fun j g =>
    match parts[j]? with
    | some p => g ++ [(p, d)]
    | none => g)

/-- The body of one iteration of the animated-branch frame loop of
src/index.js `init`: apply the filter chain to the decoded frame (a thrown
filter error rejects the whole run), partition it with `splitFrame`, and
push each tile with the frame delay onto that tile position's sequence. -/
def aggStep (proto : JimpProto) (wp hp : Nat) (ext mode : JsStr)
    (filters : Option (List JsStr)) (fv : JsStr → Option FilterValue)
    (gifs : List (List (Image × Int))) (f : SrcFrame) :
    Except JsError (List (List (Image × Int))) := do
  let jimpFrame ← applyFilters proto f.img filters fv
  pure (pushFrameParts gifs (splitFrame jimpFrame wp hp ext mode) f.delay)

/-- The whole frame loop of the animated branch of src/index.js `init`:
starting from one empty sequence per tile, run `aggStep` over the
demultiplexed source frames in order. -/
def aggregateFrames (proto : JimpProto) (frames : List SrcFrame)
    (wp hp : Nat) (ext mode : JsStr) (filters : Option (List JsStr))
    (fv : JsStr → Option FilterValue) :
    Except JsError (List (List (Image × Int))) :=
  frames.foldlM (aggStep proto wp hp ext mode filters fv) (emptyGifs wp hp)

/-- The output file name of tile `i` out of `n` in src/index.js `init`:
the run name, a dash-and-number suffix only when more than one tile
exists, and the extension (always gif in the animated branch, the source
extension otherwise). -/
def outputFileName (name : JsStr) (n i : Nat) (ext : JsStr) : JsStr :=
  name ++ (if n > 1 then '-' :: natChars (i + 1) else []) ++ '.' :: ext

/-- The file names the output loops of src/index.js `init` write, in loop
order, for a run producing `n` tiles. -/
def gridFileNames (name : JsStr) (n : Nat) (ext : JsStr) : List JsStr :=
  (List.range n).map (fun i => outputFileName name n i ext)

/-- The branch condition of `init` after quote stripping: the animated
branch runs exactly when `ext.toLowerCase() === 'gif'`. -/
def isGifBranch (image : JsStr) : Bool :=
  jsToLower (extOf image) = gifChars

end Emojify

namespace Masked

/-- Mask-variant file: `const SIZE = 128`. -/
def SIZE : Nat := 128

/-- Mask-variant `getImageWithMask(image, mask, ext, mode)`: resize the
frame to `SIZE` by `SIZE`, clone, crop at origin to `SIZE` by `SIZE`,
composite the mask (itself resized with the same mode to `SIZE` by `SIZE`,
an operation on the mask image that no claim consumes) at the origin, and
posterize to 15 levels when `ext === 'gif'`. -/
def getImageWithMask (image : Image) (mask : Image) (ext mode : JsStr) : Image :=
  let _resizedMask := mask.applyMode mode SIZE SIZE
  let resized := image.applyMode mode SIZE SIZE
  let cloned := resized.crop 0 0 SIZE SIZE
  let masked := cloned.maskAt 0 0
  if ext = gifChars then masked.pushOp (Op.posterizeOp (some 15)) else masked

/-- The fixed alphabet and symbol table of the mask-variant file, in source
order (63 entries). -/
def alphabet : List JsStr :=
  (["A", "B", "C", "D", "E", "F", "G", "H", "I", "J", "K", "L", "M",
    "N", "O", "P", "Q", "R", "S", "T", "U", "V", "W", "X", "Y", "Z",
    "exclamation", "question", "period", "comma",
    "0", "1", "2", "3", "4", "5", "6", "7", "8", "9",
    "open-parenthesis", "close-parenthesis", "open-bracket", "close-bracket",
    "colon", "semi-colon", "equals", "quote", "apostrophe", "underscore",
    "plus", "minus", "asterisk", "slash", "pipe", "less-than",
    "greater-than", "at-sign", "hash", "dollar-sign", "modulo", "caret",
    "ampersand"].map String.toList)

/-- The mask-name computation of the mask-variant loop:
`alphabet[parseInt(maskFile.split('.')[0]) - 1] || maskName`.  When the
numeric prefix indexes inside the table the (always non-empty, hence
truthy) entry is taken; when the lookup is out of range, or the prefix is
not numeric, the lookup is undefined and the fallback expression reads the
still-uninitialised const `maskName` itself, which throws a
ReferenceError (temporal dead zone). -/
def maskNameOf (maskFile : JsStr) : Except JsError JsStr :=
  match jsParseInt ((splitOnChar '.' maskFile).headD []) with
  | none => Except.error (JsError.referenceError ['m', 'a', 's', 'k', 'N', 'a', 'm', 'e'])
  | some n =>
    let idx := n - 1
    if h : 0 ≤ idx ∧ idx.toNat < alphabet.length then
      Except.ok (alphabet.get ⟨idx.toNat, h.2⟩)
    else Except.error (JsError.referenceError ['m', 'a', 's', 'k', 'N', 'a', 'm', 'e'])

/-- The file name one mask-variant iteration writes: the animated branch
writes `name-maskName.gif`; the static branch writes `name.ext` with no
mask-name suffix at all. -/
def maskedOutputFile (name maskName ext : JsStr) : JsStr :=
  if jsToLower ext = gifChars then
    name ++ '-' :: maskName ++ '.' :: gifChars
  else name ++ '.' :: ext

end Masked

/-! Helper lemmas about the partition. -/

theorem splitFrame_eq_tileAt (image : Image) (wp hp : Nat) (ext mode : JsStr) :
    Emojify.splitFrame image wp hp ext mode =
      ((List.range hp).map (fun y => (List.range wp).map (fun x =>
        Emojify.tileAt image wp hp ext mode x y))).flatten := rfl

theorem splitFrame_length (image : Image) (wp hp : Nat) (ext mode : JsStr) :
    (Emojify.splitFrame image wp hp ext mode).length = hp * wp := by
  rw [splitFrame_eq_tileAt, List.length_flatten]
  simp [List.map_map, Function.comp_def, Nat.mul_comm]

theorem flatten_getElem_uniform {α : Type} (L : List (List α)) (w : Nat)
    (hw : ∀ l ∈ L, l.length = w) (r c : Nat) (hr : r < L.length) (hc : c < w) :
    L.flatten[r * w + c]? = L[r]?.bind (fun row => row[c]?) := by
  induction L generalizing r with
  | nil => simp at hr
  | cons hd tl ih =>
    have hhd : hd.length = w := hw hd (List.mem_cons_self hd tl)
    cases r with
    | zero =>
      rw [List.flatten_cons, Nat.zero_mul, Nat.zero_add,
        List.getElem?_append_left (by rw [hhd]; exact hc)]
      simp
    | succ r =>
      have hlen : hd.length ≤ (r + 1) * w + c := by
        rw [hhd, Nat.succ_mul]
        omega
      rw [List.flatten_cons, List.getElem?_append_right hlen]
      have harith : (r + 1) * w + c - hd.length = r * w + c := by
        rw [hhd, Nat.succ_mul]
        omega
      rw [harith]
      have hr' : r < tl.length := by simpa using Nat.lt_of_succ_lt_succ hr
      rw [ih (fun l hl => hw l (List.mem_cons_of_mem hd hl)) r hr']
      simp

theorem splitFrame_getElem (image : Image) (wp hp : Nat) (ext mode : JsStr)
    (r c : Nat) (hr : r < hp) (hc : c < wp) :
    (Emojify.splitFrame image wp hp ext mode)[r * wp + c]? =
      some (Emojify.tileAt image wp hp ext mode c r) := by
  rw [splitFrame_eq_tileAt]
  rw [flatten_getElem_uniform _ wp ?_ r c (by simpa using hr) hc]
  · rw [List.getElem?_map, List.getElem?_range hr]
    simp [List.getElem?_map, List.getElem?_range hc]
  · intro l hl
    simp only [List.mem_map] at hl
    obtain ⟨y, _, rfl⟩ := hl
    simp

/-- Every tile `splitFrame` emits is a `SIZE` by `SIZE` crop (possibly with
the gif posterize step appended, which keeps dimensions). -/
theorem splitFrame_mem_dims (image : Image) (wp hp : Nat) (ext mode : JsStr)
    (t : Image) (ht : t ∈ Emojify.splitFrame image wp hp ext mode) :
    t.width = Emojify.SIZE ∧ t.height = Emojify.SIZE := by
  rw [splitFrame_eq_tileAt] at ht
  rw [List.mem_flatten] at ht
  obtain ⟨row, hrow, htrow⟩ := ht
  rw [List.mem_map] at hrow
  obtain ⟨y, _, rfl⟩ := hrow
  rw [List.mem_map] at htrow
  obtain ⟨x, _, rfl⟩ := htrow
  unfold Emojify.tileAt
  by_cases hgif : ext = gifChars <;> simp [hgif, Image.crop, Image.pushOp]

/-- C1.  For every grid shape `(widthParts, heightParts)` with positive
entries and every transformed frame of size `widthParts*SIZE` by
`heightParts*SIZE` (SIZE = 64), `splitFrame` returns exactly
`widthParts*heightParts` tiles, each exactly `SIZE` by `SIZE`, emitted in
row-major order (row `y` outer from 0 to `heightParts-1`, column `x` inner
from 0 to `widthParts-1`), the tile at position `(x, y)` being the crop of
the (identically sized) resized frame at pixel offset `(x*SIZE, y*SIZE)`
- with the format-accommodation posterize step appended when the
extension is `gif`. -/
theorem splitFrame_partition (image : Image) (wp hp : Nat) (ext mode : JsStr)
    (_hwp : 0 < wp) (_hhp : 0 < hp)
    (_hw : image.width = wp * Emojify.SIZE) (_hh : image.height = hp * Emojify.SIZE) :
    (Emojify.splitFrame image wp hp ext mode).length = wp * hp
    ∧ (∀ t ∈ Emojify.splitFrame image wp hp ext mode,
        t.width = Emojify.SIZE ∧ t.height = Emojify.SIZE)
    ∧ (∀ y x, y < hp → x < wp →
        (Emojify.splitFrame image wp hp ext mode)[y * wp + x]? =
          some (Emojify.tileAt image wp hp ext mode x y)) := by
  refine ⟨?_, ?_, ?_⟩
  · rw [splitFrame_length]; exact Nat.mul_comm hp wp
  · exact fun t ht => splitFrame_mem_dims image wp hp ext mode t ht
  · intro y x hy hx
    exact splitFrame_getElem image wp hp ext mode y x hy hx

/-- Witness for C1 at a concrete input: a 128 by 128 frame with grid shape
`(2, 2)` yields 4 tiles; the tile at row 1, column 0 sits at index 2 and is
the crop at offset `(0, 64)`. -/
theorem splitFrame_partition_witness :
    (Emojify.splitFrame ⟨128, 128, []⟩ 2 2 ['p', 'n', 'g'] ['c', 'o', 'v', 'e', 'r']).length = 4
    ∧ (Emojify.splitFrame ⟨128, 128, []⟩ 2 2 ['p', 'n', 'g'] ['c', 'o', 'v', 'e', 'r'])[2]? =
        some (Emojify.tileAt ⟨128, 128, []⟩ 2 2 ['p', 'n', 'g'] ['c', 'o', 'v', 'e', 'r'] 0 1) := by
  have h := splitFrame_partition ⟨128, 128, []⟩ 2 2 ['p', 'n', 'g'] ['c', 'o', 'v', 'e', 'r']
    (by decide) (by decide) (by decide) (by decide)
  refine ⟨h.1, ?_⟩
  have := h.2.2 1 0 (by decide) (by decide)
  simpa using this

/-! Theorems about the filter chain. -/

theorem applyFilters_single (proto : Emojify.JimpProto) (image : Image)
    (fv : JsStr → Option FilterValue) (f : JsStr) :
    Emojify.applyFilters proto image (some [f]) fv =
      Emojify.applyOneFilter proto image fv f := by
  cases h : Emojify.applyOneFilter proto image fv f <;>
    simp [Emojify.applyFilters, List.foldlM, h]

/-- C5 counterexample.  Applying the filter chain with the unknown filter
name foo (a name outside the supported set, and bound to no method in the
Jimp prototype) raises a TypeError: the dynamic call `image[filter]()`
calls the undefined property.  The claim says the entry is ignored with no
error and the frame passed through unchanged; the chain instead aborts
with an error. -/
theorem unknown_filter_counterexample :
    Emojify.applyFilters Emojify.jimpPrototype ⟨64, 64, []⟩
        (some [['f', 'o', 'o']]) (fun _ => none) =
      Except.error (JsError.typeError ['f', 'o', 'o']) := by
  rw [applyFilters_single]
  rfl

/-- C5 as amended.  A filter name without an explicit switch case (in
particular every name outside the supported set) is dispatched dynamically
as `image[filter]()` over the Jimp prototype: a name that matches no
prototype method makes the looked-up property undefined and the call
raises a TypeError, aborting the chain - the entry is not silently
ignored and the frame is not passed through unchanged - while a name
that does match a prototype method is invoked as a zero-argument call. -/
theorem unknown_filter_raises (proto : Emojify.JimpProto) (image : Image)
    (fv : JsStr → Option FilterValue) (f : JsStr)
    (hsw : f ∉ Emojify.switchCaseNames) :
    (proto f = none →
      Emojify.applyFilters proto image (some [f]) fv =
        Except.error (JsError.typeError f))
    ∧ ∀ op : Op, proto f = some op →
      Emojify.applyFilters proto image (some [f]) fv =
        Except.ok (image.pushOp op) := by
  have h1 : ¬ f = Emojify.flipChars := fun h => hsw (by rw [h]; decide)
  have h2 : ¬ (f = Emojify.brightnessChars ∨ f = Emojify.contrastChars
      ∨ f = Emojify.opacityChars ∨ f = Emojify.rotateChars) := by
    rintro (h | h | h | h) <;> exact hsw (by rw [h]; decide)
  have h3 : ¬ f = Emojify.posterizeChars := fun h => hsw (by rw [h]; decide)
  constructor
  · intro hp
    rw [applyFilters_single]
    unfold Emojify.applyOneFilter
    rw [if_neg h1, if_neg h2, if_neg h3, hp]
  · intro op hp
    rw [applyFilters_single]
    unfold Emojify.applyOneFilter
    rw [if_neg h1, if_neg h2, if_neg h3, hp]

/-- Witness for the amended C5: under the concrete prototype fragment the
unbound name bar throws a TypeError, while the bound name invert (itself
outside the six switch cases) is invoked as a zero-argument method. -/
theorem unknown_filter_raises_witness :
    Emojify.applyFilters Emojify.jimpPrototype ⟨0, 0, []⟩
        (some [['b', 'a', 'r']]) (fun _ => none) =
      Except.error (JsError.typeError ['b', 'a', 'r'])
    ∧ Emojify.applyFilters Emojify.jimpPrototype ⟨0, 0, []⟩
        (some [['i', 'n', 'v', 'e', 'r', 't']]) (fun _ => none) =
      Except.ok (Image.pushOp ⟨0, 0, []⟩ Op.invert) :=
  ⟨(unknown_filter_raises Emojify.jimpPrototype ⟨0, 0, []⟩ (fun _ => none)
      ['b', 'a', 'r'] (by decide)).1 rfl,
   (unknown_filter_raises Emojify.jimpPrototype ⟨0, 0, []⟩ (fun _ => none)
      ['i', 'n', 'v', 'e', 'r', 't'] (by decide)).2 Op.invert rfl⟩

/-- C6.  Applying a brightness, contrast, opacity or rotate filter whose
stored user value is the number `v` invokes the Jimp operation of that
name with `v / 100`, while applying a posterize filter with level `v`
invokes the posterize operation with `v` unchanged. -/
theorem filter_value_normalization (proto : Emojify.JimpProto)
    (image : Image) (v : ℚ) (fv : JsStr → Option FilterValue) :
    (fv Emojify.brightnessChars = some (FilterValue.num v) →
      Emojify.applyFilters proto image (some [Emojify.brightnessChars]) fv =
        Except.ok (image.pushOp (Op.brightness (some (v / 100)))))
    ∧ (fv Emojify.contrastChars = some (FilterValue.num v) →
      Emojify.applyFilters proto image (some [Emojify.contrastChars]) fv =
        Except.ok (image.pushOp (Op.contrast (some (v / 100)))))
    ∧ (fv Emojify.opacityChars = some (FilterValue.num v) →
      Emojify.applyFilters proto image (some [Emojify.opacityChars]) fv =
        Except.ok (image.pushOp (Op.opacity (some (v / 100)))))
    ∧ (fv Emojify.rotateChars = some (FilterValue.num v) →
      Emojify.applyFilters proto image (some [Emojify.rotateChars]) fv =
        Except.ok (image.pushOp (Op.rotate (some (v / 100)))))
    ∧ (fv Emojify.posterizeChars = some (FilterValue.num v) →
      Emojify.applyFilters proto image (some [Emojify.posterizeChars]) fv =
        Except.ok (image.pushOp (Op.posterizeOp (some v)))) := by
  refine ⟨?_, ?_, ?_, ?_, ?_⟩ <;> intro h <;> rw [applyFilters_single] <;>
    unfold Emojify.applyOneFilter
  · rw [if_neg (by decide), if_pos (Or.inl rfl), h]
    unfold Emojify.numOpFor
    rw [if_pos rfl]
    rfl
  · rw [if_neg (by decide), if_pos (Or.inr (Or.inl rfl)), h]
    unfold Emojify.numOpFor
    rw [if_neg (by decide), if_pos rfl]
    rfl
  · rw [if_neg (by decide), if_pos (Or.inr (Or.inr (Or.inl rfl))), h]
    unfold Emojify.numOpFor
    rw [if_neg (by decide), if_neg (by decide), if_pos rfl]
    rfl
  · rw [if_neg (by decide), if_pos (Or.inr (Or.inr (Or.inr rfl))), h]
    unfold Emojify.numOpFor
    rw [if_neg (by decide), if_neg (by decide), if_neg (by decide)]
    rfl
  · rw [if_neg (by decide), if_neg (by decide), if_pos rfl, h]
    rfl

/-- Witness for C6: brightness 50 is applied as 50/100, posterize 8 as 8. -/
theorem filter_value_normalization_witness :
    Emojify.applyFilters Emojify.jimpPrototype ⟨0, 0, []⟩
        (some [Emojify.brightnessChars]) (fun _ => some (FilterValue.num 50)) =
      Except.ok (Image.pushOp ⟨0, 0, []⟩ (Op.brightness (some (50 / 100))))
    ∧ Emojify.applyFilters Emojify.jimpPrototype ⟨0, 0, []⟩
        (some [Emojify.posterizeChars]) (fun _ => some (FilterValue.num 8)) =
      Except.ok (Image.pushOp ⟨0, 0, []⟩ (Op.posterizeOp (some 8))) :=
  ⟨(filter_value_normalization Emojify.jimpPrototype ⟨0, 0, []⟩ 50
      (fun _ => some (FilterValue.num 50))).1 rfl,
   (filter_value_normalization Emojify.jimpPrototype ⟨0, 0, []⟩ 8
      (fun _ => some (FilterValue.num 8))).2.2.2.2 rfl⟩

/-! Code evaluations for the claims the code refutes. -/

/-- C4 code evaluation at the failing input.  The dimension validation
accepts 3x4 through the W,H regex (whose separator class also admits x and
the pipe), but `init` splits the string only on commas, so `Number` sees
the whole string 3x4 and both grid dimensions come out as non-numbers (NaN
and undefined) instead of the claimed (3, 4); a comma-separated string
parses as the claim describes; and the accepted string 0 yields the
non-positive grid (0, 0). -/
theorem dimensions_code_eval :
    Emojify.validateDimensions ['3', 'x', '4'] = true
    ∧ Emojify.parseDimensions ['3', 'x', '4'] = some ⟨none, none⟩
    ∧ Emojify.parseDimensions ['3', ',', '4'] = some ⟨some 3, some 4⟩
    ∧ Emojify.validateDimensions ['3', '|', '4'] = true
    ∧ Emojify.validateDimensions ['0'] = true
    ∧ Emojify.parseDimensions ['0'] = some ⟨some 0, some 0⟩ := by
  refine ⟨rfl, rfl, ?_, rfl, rfl, rfl⟩
  rfl

/-- C8 code evaluation at the failing input.  Quote stripping removes a
single leading and trailing quote, but the remote-classification regex
`^http?s` makes the p optional while requiring the literal s, so a locator
with the plain http scheme is classified as local; only the https prefix
(or the htts typo it also admits) is classified as remote. -/
theorem url_classification_code_eval :
    stripQuotes (quoteChar :: ("http://example.com/a.png".toList ++ [quoteChar])) =
      "http://example.com/a.png".toList
    ∧ isUrl ("http://example.com/a.png".toList) = false
    ∧ isUrl ("https://example.com/a.png".toList) = true
    ∧ isUrl ("htts://example.com/a.png".toList) = true := by
  exact ⟨rfl, rfl, rfl, rfl⟩

/-- C9 code evaluation.  A mask file whose numeric prefix indexes inside
the 63-entry table gets its table name, but an out-of-range prefix (such
as 99) makes the lookup undefined and the fallback reads the
still-uninitialised `maskName` const itself, throwing a ReferenceError
instead of keeping the numeric name; moreover the static branch writes
`name.ext` with no mask-name suffix, while the animated branch writes
`name-maskName.gif`. -/
theorem mask_name_code_eval :
    Masked.maskNameOf ("1.png".toList) = Except.ok ("A".toList)
    ∧ Masked.maskNameOf ("26.png".toList) = Except.ok ("Z".toList)
    ∧ Masked.maskNameOf ("99.png".toList) =
        Except.error (JsError.referenceError ("maskName".toList))
    ∧ Masked.maskNameOf ("cool.png".toList) =
        Except.error (JsError.referenceError ("maskName".toList))
    ∧ Masked.maskedOutputFile ("name".toList) ("A".toList) ("png".toList) =
        "name.png".toList
    ∧ Masked.maskedOutputFile ("name".toList) ("A".toList) ("gif".toList) =
        "name-A.gif".toList := by
  exact ⟨rfl, rfl, rfl, rfl, rfl, rfl⟩

/-! Theorems about the animated-branch aggregation. -/

theorem pushFrameParts_length (gifs : List (List (Image × Int)))
    (parts : List Image) (d : Int) :
    (Emojify.pushFrameParts gifs parts d).length = gifs.length :=
  List.length_mapIdx

theorem pushFrameParts_getElem (gifs : List (List (Image × Int)))
    (parts : List Image) (d : Int) (j : Nat) :
    (Emojify.pushFrameParts gifs parts d)[j]? =
      gifs[j]?.map (fun g =>
        match parts[j]? with
        | some p => g ++ [(p, d)]
        | none => g) := by
  unfold Emojify.pushFrameParts
  rw [List.getElem?_mapIdx]

theorem aggregate_loop (proto : Emojify.JimpProto) (wp hp : Nat)
    (ext mode : JsStr) (filters : Option (List JsStr))
    (fv : JsStr → Option FilterValue) :
    ∀ (frames : List Emojify.SrcFrame) (acc gifs : List (List (Image × Int))),
      List.foldlM (Emojify.aggStep proto wp hp ext mode filters fv) acc frames =
        Except.ok gifs →
      gifs.length = acc.length ∧
      ∀ j a, acc[j]? = some a → j < wp * hp →
        ∃ gj, gifs[j]? = some gj ∧ gj.length = a.length + frames.length
          ∧ (∀ i, i < a.length → gj[i]? = a[i]?)
          ∧ (∀ (i : Nat) (fi : Emojify.SrcFrame), frames[i]? = some fi →
              ∃ proc tile, Emojify.applyFilters proto fi.img filters fv = Except.ok proc
                ∧ (Emojify.splitFrame proc wp hp ext mode)[j]? = some tile
                ∧ gj[a.length + i]? = some (tile, fi.delay)) := by
  intro frames
  induction frames with
  | nil =>
    intro acc gifs h
    have hag : acc = gifs := by
      simpa [List.foldlM, pure, Except.pure] using h
    subst hag
    refine ⟨rfl, ?_⟩
    intro j a hja _
    exact ⟨a, hja, by simp, fun i _ => rfl, fun i fi hfi => by simp at hfi⟩
  | cons f fs ih =>
    intro acc gifs h
    cases happ : Emojify.applyFilters proto f.img filters fv with
    | error e =>
      exfalso
      have hstep : Emojify.aggStep proto wp hp ext mode filters fv acc f =
          Except.error e := by
        unfold Emojify.aggStep
        rw [happ]
        rfl
      rw [show List.foldlM (Emojify.aggStep proto wp hp ext mode filters fv) acc (f :: fs) =
          Emojify.aggStep proto wp hp ext mode filters fv acc f >>= fun b =>
            List.foldlM (Emojify.aggStep proto wp hp ext mode filters fv) b fs from rfl,
        hstep] at h
      simp [Bind.bind, Except.bind] at h
    | ok proc =>
      have hstep : Emojify.aggStep proto wp hp ext mode filters fv acc f =
          Except.ok (Emojify.pushFrameParts acc
            (Emojify.splitFrame proc wp hp ext mode) f.delay) := by
        unfold Emojify.aggStep
        rw [happ]
        rfl
      have h' : List.foldlM (Emojify.aggStep proto wp hp ext mode filters fv)
          (Emojify.pushFrameParts acc (Emojify.splitFrame proc wp hp ext mode) f.delay)
          fs = Except.ok gifs := by
        rw [show List.foldlM (Emojify.aggStep proto wp hp ext mode filters fv) acc (f :: fs) =
            Emojify.aggStep proto wp hp ext mode filters fv acc f >>= fun b =>
              List.foldlM (Emojify.aggStep proto wp hp ext mode filters fv) b fs from rfl,
          hstep] at h
        simpa [Bind.bind, Except.bind] using h
      obtain ⟨hlen, hspec⟩ := ih _ gifs h'
      refine ⟨by rw [hlen, pushFrameParts_length], ?_⟩
      intro j a hja hj
      have hjp : j < (Emojify.splitFrame proc wp hp ext mode).length := by
        rw [splitFrame_length, Nat.mul_comm]
        exact hj
      obtain ⟨tile, htile⟩ : ∃ t, (Emojify.splitFrame proc wp hp ext mode)[j]? = some t :=
        ⟨_, List.getElem?_eq_getElem hjp⟩
      have hacc' : (Emojify.pushFrameParts acc
          (Emojify.splitFrame proc wp hp ext mode) f.delay)[j]? =
            some (a ++ [(tile, f.delay)]) := by
        rw [pushFrameParts_getElem, hja, htile]
        rfl
      obtain ⟨gj, hgj, hlen2, hpre, hrest⟩ := hspec j (a ++ [(tile, f.delay)]) hacc' hj
      refine ⟨gj, hgj, ?_, ?_, ?_⟩
      · rw [hlen2]
        simp
        omega
      · intro i hi
        have hp1 := hpre i (by simp; omega)
        rw [hp1, List.getElem?_append_left hi]
      · intro i fi hfi
        cases i with
        | zero =>
          have hf : fi = f := by simpa using hfi.symm
          subst hf
          refine ⟨proc, tile, happ, htile, ?_⟩
          have h0 := hpre a.length (by simp)
          rw [Nat.add_zero, h0, List.getElem?_append_right (Nat.le_refl _)]
          simp
        | succ i =>
          have hfs : fs[i]? = some fi := by simpa using hfi
          obtain ⟨proc', tile', hq1, hq2, hq3⟩ := hrest i fi hfs
          refine ⟨proc', tile', hq1, hq2, ?_⟩
          rw [show a.length + (i + 1) = (a ++ [(tile, f.delay)]).length + i by simp; omega]
          exact hq3

theorem rowcol_lt (r c wp hp : Nat) (hr : r < hp) (hc : c < wp) :
    r * wp + c < wp * hp := by
  have h2 : (r + 1) * wp ≤ hp * wp := Nat.mul_le_mul_right wp hr
  have h3 : r * wp + c < (r + 1) * wp := by
    rw [Nat.succ_mul]
    omega
  rw [Nat.mul_comm wp hp]
  exact Nat.lt_of_lt_of_le h3 h2

/-- C2.  For every animated source whose frame sequence has length L, the
animated-branch aggregation (when it completes without a thrown filter
error) builds, for every tile coordinate `(c, r)`, a per-tile sequence of
length exactly L in which entry `i` is the `(c, r)` tile partitioned from
(the filtered form of) source frame `i` and carries the delay value of
source frame `i` verbatim; aggregation never reorders frames or tiles. -/
theorem aggregate_tile_sequences (proto : Emojify.JimpProto)
    (frames : List Emojify.SrcFrame) (wp hp : Nat)
    (ext mode : JsStr) (filters : Option (List JsStr))
    (fv : JsStr → Option FilterValue) (gifs : List (List (Image × Int)))
    (h : Emojify.aggregateFrames proto frames wp hp ext mode filters fv =
      Except.ok gifs) :
    gifs.length = wp * hp
    ∧ ∀ r c, r < hp → c < wp →
        ∃ gj, gifs[r * wp + c]? = some gj ∧ gj.length = frames.length
          ∧ ∀ (i : Nat) (fi : Emojify.SrcFrame), frames[i]? = some fi →
              ∃ proc, Emojify.applyFilters proto fi.img filters fv = Except.ok proc
                ∧ gj[i]? = some (Emojify.tileAt proc wp hp ext mode c r, fi.delay) := by
  obtain ⟨hlen, hspec⟩ := aggregate_loop proto wp hp ext mode filters fv frames
    (Emojify.emptyGifs wp hp) gifs h
  refine ⟨by rw [hlen]; simp [Emojify.emptyGifs], ?_⟩
  intro r c hr hc
  have hj : r * wp + c < wp * hp := rowcol_lt r c wp hp hr hc
  have hrep : (Emojify.emptyGifs wp hp)[r * wp + c]? = some ([] : List (Image × Int)) := by
    simp [Emojify.emptyGifs, List.getElem?_replicate, hj]
  obtain ⟨gj, hgj, hlen2, _, hentries⟩ := hspec (r * wp + c) [] hrep hj
  refine ⟨gj, hgj, by simpa using hlen2, ?_⟩
  intro i fi hfi
  obtain ⟨proc, tile, hq1, hq2, hq3⟩ := hentries i fi hfi
  have htile : tile = Emojify.tileAt proc wp hp ext mode c r := by
    have := splitFrame_getElem proc wp hp ext mode r c hr hc
    rw [this] at hq2
    exact (Option.some.injEq _ _ ▸ hq2.symm :)
  refine ⟨proc, hq1, ?_⟩
  rw [← htile]
  simpa using hq3

/-- Witness for C2 at a concrete input: two source frames with delays 5 and
7 on a 1 by 1 grid aggregate to one tile sequence of length 2 that keeps
both delays in order. -/
theorem aggregate_tile_sequences_witness :
    ([[(Emojify.tileAt ⟨10, 10, []⟩ 1 1 ['p', 'n', 'g'] ['c', 'o', 'v', 'e', 'r'] 0 0, (5 : Int)),
       (Emojify.tileAt ⟨10, 10, []⟩ 1 1 ['p', 'n', 'g'] ['c', 'o', 'v', 'e', 'r'] 0 0, (7 : Int))]] :
      List (List (Image × Int))).length = 1 * 1
    ∧ ∀ r c, r < 1 → c < 1 →
        ∃ gj, ([[(Emojify.tileAt ⟨10, 10, []⟩ 1 1 ['p', 'n', 'g'] ['c', 'o', 'v', 'e', 'r'] 0 0, (5 : Int)),
            (Emojify.tileAt ⟨10, 10, []⟩ 1 1 ['p', 'n', 'g'] ['c', 'o', 'v', 'e', 'r'] 0 0, (7 : Int))]] :
          List (List (Image × Int)))[r * 1 + c]? = some gj
          ∧ gj.length = ([⟨⟨10, 10, []⟩, 5⟩, ⟨⟨10, 10, []⟩, 7⟩] : List Emojify.SrcFrame).length
          ∧ ∀ (i : Nat) (fi : Emojify.SrcFrame),
              ([⟨⟨10, 10, []⟩, 5⟩, ⟨⟨10, 10, []⟩, 7⟩] : List Emojify.SrcFrame)[i]? = some fi →
              ∃ proc, Emojify.applyFilters Emojify.jimpPrototype fi.img none
                  (fun _ => none) = Except.ok proc
                ∧ gj[i]? = some (Emojify.tileAt proc 1 1 ['p', 'n', 'g'] ['c', 'o', 'v', 'e', 'r'] c r, fi.delay) :=
  aggregate_tile_sequences Emojify.jimpPrototype [⟨⟨10, 10, []⟩, 5⟩, ⟨⟨10, 10, []⟩, 7⟩] 1 1
    ['p', 'n', 'g'] ['c', 'o', 'v', 'e', 'r'] none (fun _ => none) _ rfl

/-! Theorems about output file naming. -/

theorem digitCharLt_inj :
    ∀ d1 ∈ List.range 10, ∀ d2 ∈ List.range 10,
      Char.ofNat (48 + d1) = Char.ofNat (48 + d2) → d1 = d2 := by decide

theorem map_digitChar_inj (l1 l2 : List Nat)
    (h1 : ∀ d ∈ l1, d < 10) (h2 : ∀ d ∈ l2, d < 10)
    (h : l1.map (fun d => Char.ofNat (48 + d)) = l2.map (fun d => Char.ofNat (48 + d))) :
    l1 = l2 := by
  induction l1 generalizing l2 with
  | nil => cases l2 <;> simp_all
  | cons a t ih =>
    cases l2 with
    | nil => simp_all
    | cons b t2 =>
      simp only [List.map_cons, List.cons.injEq] at h
      have ha : a = b := digitCharLt_inj a
        (List.mem_range.mpr (h1 a (List.mem_cons_self a t))) b
        (List.mem_range.mpr (h2 b (List.mem_cons_self b t2))) h.1
      have ht : t = t2 := ih t2 (fun d hd => h1 d (List.mem_cons_of_mem a hd))
        (fun d hd => h2 d (List.mem_cons_of_mem b hd)) h.2
      rw [ha, ht]

theorem natChars_inj (a b : Nat) (ha : 0 < a) (hb : 0 < b)
    (h : natChars a = natChars b) : a = b := by
  unfold natChars at h
  rw [if_neg (Nat.pos_iff_ne_zero.mp ha), if_neg (Nat.pos_iff_ne_zero.mp hb)] at h
  have h2 := List.reverse_injective h
  have h3 := map_digitChar_inj (Nat.digits 10 a) (Nat.digits 10 b)
    (fun d hd => Nat.digits_lt_base (by norm_num) hd)
    (fun d hd => Nat.digits_lt_base (by norm_num) hd) h2
  have h4 := congrArg (Nat.ofDigits 10) h3
  rwa [Nat.ofDigits_digits, Nat.ofDigits_digits] at h4

/-- C3.  For every run of the grid variant whose grid yields exactly one
tile, the single output file is named with the bare run name and no
numeric suffix; when the grid yields `n > 1` tiles, the output loop writes
exactly `n` pairwise-distinct file names with suffixes -1 through -n
appended in row-major tile order (the tile at loop index `k` gets suffix
`-(k+1)`). -/
theorem grid_output_naming (image : Image) (wp hp : Nat) (ext mode name : JsStr)
    (n : Nat) (_hn : n = (Emojify.splitFrame image wp hp ext mode).length) :
    (n = 1 → Emojify.gridFileNames name n ext = [name ++ '.' :: ext])
    ∧ (1 < n →
        (Emojify.gridFileNames name n ext).length = n
        ∧ (Emojify.gridFileNames name n ext).Nodup
        ∧ ∀ k, k < n → (Emojify.gridFileNames name n ext)[k]? =
            some (name ++ '-' :: (natChars (k + 1) ++ '.' :: ext))) := by
  constructor
  · intro h1
    subst h1
    simp [Emojify.gridFileNames, Emojify.outputFileName]
  · intro hgt
    refine ⟨by simp [Emojify.gridFileNames], ?_, ?_⟩
    · apply List.Nodup.map_on ?_ (List.nodup_range n)
      intro x _ y _ hxy
      unfold Emojify.outputFileName at hxy
      simp only [if_pos hgt] at hxy
      have h2 := List.append_cancel_left (List.append_cancel_right hxy)
      have h3 : natChars (x + 1) = natChars (y + 1) := by
        injection h2
      have h4 := natChars_inj (x + 1) (y + 1) (Nat.succ_pos x) (Nat.succ_pos y) h3
      omega
    · intro k hk
      unfold Emojify.gridFileNames
      rw [List.getElem?_map, List.getElem?_range hk, Option.map_some']
      unfold Emojify.outputFileName
      rw [if_pos hgt]
      simp [List.append_assoc]

/-- Witness for C3: one tile gives the bare name; a 2 by 3 grid gives six
distinct names, the fifth being emoji-5.png. -/
theorem grid_output_naming_witness :
    Emojify.gridFileNames ("emoji".toList) 1 ("png".toList) = ["emoji.png".toList]
    ∧ (Emojify.gridFileNames ("emoji".toList) 6 ("png".toList)).Nodup
    ∧ (Emojify.gridFileNames ("emoji".toList) 6 ("png".toList))[4]? =
        some ("emoji-5.png".toList) := by
  refine ⟨?_, ?_, ?_⟩
  · have h1 := (grid_output_naming ⟨64, 64, []⟩ 1 1 ("png".toList) ("cover".toList)
      ("emoji".toList) 1 (by decide)).1 rfl
    rw [h1]
    decide
  · exact ((grid_output_naming ⟨128, 192, []⟩ 2 3 ("png".toList) ("cover".toList)
      ("emoji".toList) 6 (by decide)).2 (by norm_num)).2.1
  · have h6 := ((grid_output_naming ⟨128, 192, []⟩ 2 3 ("png".toList) ("cover".toList)
      ("emoji".toList) 6 (by decide)).2 (by norm_num)).2.2 4 (by norm_num)
    rw [h6]
    norm_num [natChars]

/-! Theorems about source-locator validation. -/

theorem dropWhile_append_of_head_false (p : Char → Bool) (c : Char) (bs : JsStr)
    (hc : p c = false) :
    ∀ t : JsStr, List.dropWhile p (t ++ c :: bs) = List.dropWhile p t ++ c :: bs := by
  intro t
  induction t with
  | nil =>
    simp [List.dropWhile_cons, hc]
  | cons a t ih =>
    by_cases ha : p a = true
    · simp [List.dropWhile_cons, ha, ih]
    · simp [List.dropWhile_cons, Bool.eq_false_iff.mpr ha]

theorem suffix_jsTrim (b l : JsStr) (hb : b ≠ [])
    (hnw : ∀ c ∈ b, c.isWhitespace = false) (h : b <:+ l) : b <:+ jsTrim l := by
  obtain ⟨t, rfl⟩ := h
  cases hbc : b with
  | nil => exact absurd hbc hb
  | cons c bs =>
    subst hbc
    unfold jsTrim
    rw [dropWhile_append_of_head_false Char.isWhitespace c bs
      (hnw c (List.mem_cons_self c bs)) t]
    rw [List.reverse_append]
    cases hrev : (c :: bs).reverse with
    | nil => simp at hrev
    | cons d ds =>
      have hd : d ∈ c :: bs := by
        rw [← List.mem_reverse, hrev]
        exact List.mem_cons_self d ds
      rw [List.cons_append, List.dropWhile_cons, if_neg (by simp [hnw d hd])]
      have h5 : (d :: ds).reverse = c :: bs := by
        rw [← hrev, List.reverse_reverse]
      have h6 : (d :: (ds ++ (List.dropWhile Char.isWhitespace t).reverse)).reverse =
          List.dropWhile Char.isWhitespace t ++ c :: bs := by
        rw [← List.cons_append, List.reverse_append, List.reverse_reverse, h5]
      rw [h6]
      exact ⟨List.dropWhile Char.isWhitespace t, rfl⟩

/-- C10 counterexample.  The claim says the extension check is
case-insensitive, so photo.PNG would be accepted; the validation regex has
no ignore-case flag and rejects it. -/
theorem validate_case_counterexample :
    validateImage ("photo.PNG".toList) = false := by decide

/-- C10 as amended.  The source-format validation accepts the trimmed
locator when it ends with one of the supported extensions .png .jpg .jpeg
.gif .bmp written in lowercase (the regex is case-sensitive), optionally
followed by one trailing single-quote character; in particular a
still-quoted drag-and-drop path such as photo.png followed by a quote
passes validation before any quote stripping occurs. -/
theorem validate_extension_accepts (s e : JsStr) (he : e ∈ imageExtChars) :
    validateImage (s ++ '.' :: e) = true
    ∧ validateImage (s ++ '.' :: e ++ [quoteChar]) = true := by
  have hnw : ∀ c ∈ '.' :: e, c.isWhitespace = false := by
    fin_cases he <;> decide
  have hnwq : ∀ c ∈ '.' :: e ++ [quoteChar], c.isWhitespace = false := by
    fin_cases he <;> decide
  constructor
  · have hs : ('.' :: e) <:+ jsTrim (s ++ '.' :: e) :=
      suffix_jsTrim ('.' :: e) (s ++ '.' :: e) (by simp) hnw ⟨s, rfl⟩
    unfold validateImage
    rw [List.any_eq_true]
    exact ⟨e, he, by rw [Bool.or_eq_true, decide_eq_true_iff]; exact Or.inl hs⟩
  · have hs : ('.' :: e ++ [quoteChar]) <:+ jsTrim (s ++ ('.' :: e ++ [quoteChar])) :=
      suffix_jsTrim ('.' :: e ++ [quoteChar]) (s ++ ('.' :: e ++ [quoteChar]))
        (by simp) hnwq ⟨s, rfl⟩
    unfold validateImage
    rw [List.any_eq_true]
    refine ⟨e, he, ?_⟩
    rw [Bool.or_eq_true, decide_eq_true_iff, decide_eq_true_iff]
    right
    have hassoc : s ++ '.' :: e ++ [quoteChar] = s ++ ('.' :: e ++ [quoteChar]) :=
      List.append_assoc s ('.' :: e) [quoteChar]
    rwa [hassoc]

/-- Witness for the amended C10: photo.png and the still-quoted photo.png
with a trailing quote both pass validation. -/
theorem validate_extension_accepts_witness :
    validateImage ("photo".toList ++ '.' :: "png".toList) = true
    ∧ validateImage ("photo".toList ++ '.' :: "png".toList ++ [quoteChar]) = true :=
  validate_extension_accepts ("photo".toList) ("png".toList) (by decide)

/-! Theorems about the extension computation and the gif format
accommodation. -/

theorem splitOnChar_ne_nil (c : Char) (s : JsStr) : splitOnChar c s ≠ [] := by
  induction s with
  | nil => simp [splitOnChar]
  | cons a rest ih =>
    simp only [splitOnChar]
    by_cases ha : a = c
    · simp [ha]
    · simp only [if_neg ha]
      cases splitOnChar c rest <;> simp

theorem splitOnChar_no_sep (c : Char) (s : JsStr) (h : c ∉ s) :
    splitOnChar c s = [s] := by
  induction s with
  | nil => rfl
  | cons a rest ih =>
    have ha : ¬ a = c := fun he => h (he ▸ List.mem_cons_self a rest)
    have hr : c ∉ rest := fun hm => h (List.mem_cons_of_mem a hm)
    simp only [splitOnChar, if_neg ha, ih hr]

theorem splitOnChar_two_le (c : Char) (s : JsStr) (h : c ∈ s) :
    2 ≤ (splitOnChar c s).length := by
  induction s with
  | nil => simp at h
  | cons a rest ih =>
    by_cases ha : a = c
    · simp only [splitOnChar, if_pos ha]
      cases hr : splitOnChar c rest with
      | nil => exact absurd hr (splitOnChar_ne_nil c rest)
      | cons x t => simp
    · have hm : c ∈ rest := by
        rcases List.mem_cons.mp h with h1 | h1
        · exact absurd h1.symm ha
        · exact h1
      simp only [splitOnChar, if_neg ha]
      cases hr : splitOnChar c rest with
      | nil => exact absurd hr (splitOnChar_ne_nil c rest)
      | cons x t =>
        have h2 := ih hm
        rw [hr] at h2
        simpa using h2

theorem getLastD_default_irrel {α : Type} (l : List α) (h : l ≠ []) (d1 d2 : α) :
    l.getLastD d1 = l.getLastD d2 := by
  cases l with
  | nil => exact absurd rfl h
  | cons a t => rw [List.getLastD_cons, List.getLastD_cons]

theorem splitOnChar_last (c : Char) (e : JsStr) (he : c ∉ e) :
    ∀ p : JsStr, (splitOnChar c (p ++ c :: e)).getLastD [] = e := by
  intro p
  induction p with
  | nil =>
    simp only [List.nil_append, splitOnChar, if_pos rfl, splitOnChar_no_sep c e he]
    rfl
  | cons a p ih =>
    by_cases ha : a = c
    · simp only [List.cons_append, splitOnChar, if_pos ha]
      rw [List.getLastD_cons]
      exact ih
    · simp only [List.cons_append, splitOnChar, if_neg ha]
      cases hr : splitOnChar c (p ++ c :: e) with
      | nil => exact absurd hr (splitOnChar_ne_nil _ _)
      | cons x t =>
        have h2 := splitOnChar_two_le c (p ++ c :: e) (by simp)
        rw [hr] at h2
        cases t with
        | nil => simp at h2
        | cons y t2 =>
          rw [List.getLastD_cons]
          have h3 := ih
          rw [hr, List.getLastD_cons] at h3
          rw [getLastD_default_irrel (y :: t2) (by simp) (a :: x) x]
          exact h3

theorem extOf_append (e : JsStr) (he : '.' ∉ e) (p : JsStr) :
    extOf (p ++ '.' :: e) = e :=
  splitOnChar_last '.' e he p

theorem extOf_strip_suffix (e : JsStr) (hdot : '.' ∉ e) (hq : quoteChar ∉ e)
    (hne : e ≠ []) (t : JsStr) :
    (('.' :: e) <:+ t → extOf (stripQuotes t) = e)
    ∧ (('.' :: e ++ [quoteChar]) <:+ t →
        extOf (stripQuotes t) = e ∨ extOf (stripQuotes t) = e ++ [quoteChar]) := by
  constructor
  · rintro ⟨p, rfl⟩
    have hlast : (p ++ '.' :: e).getLast? ≠ some quoteChar := by
      rw [List.getLast?_append_of_ne_nil p (by simp)]
      have hce : ('.' :: e).getLast? = e.getLast? := by
        rw [show ('.' :: e) = ['.'] ++ e from rfl, List.getLast?_append_of_ne_nil _ hne]
      rw [hce]
      intro hcon
      exact hq (List.mem_of_mem_getLast? hcon)
    unfold stripQuotes
    rw [if_neg (fun hc => hlast hc.2)]
    exact extOf_append e hdot p
  · rintro ⟨p, rfl⟩
    by_cases hcond : (p ++ ('.' :: e ++ [quoteChar])).head? = some quoteChar
        ∧ (p ++ ('.' :: e ++ [quoteChar])).getLast? = some quoteChar
    · cases p with
      | nil =>
        exfalso
        have hh := hcond.1
        rw [List.nil_append, List.head?_append_of_ne_nil ('.' :: e) (by simp)] at hh
        simp only [List.head?_cons, Option.some.injEq] at hh
        exact absurd hh (by decide)
      | cons a p' =>
        left
        unfold stripQuotes
        rw [if_pos hcond]
        have hdrop : (a :: p' ++ ('.' :: e ++ [quoteChar])).drop 1 =
            (p' ++ '.' :: e) ++ [quoteChar] := by
          rw [List.cons_append, List.drop_one, List.tail_cons, ← List.append_assoc]
        have hlen : (a :: p' ++ ('.' :: e ++ [quoteChar])).length - 2 =
            (p' ++ '.' :: e).length := by
          simp
        rw [hdrop, hlen, List.take_left]
        exact extOf_append e hdot p'
    · right
      unfold stripQuotes
      rw [if_neg hcond]
      have hsh : p ++ ('.' :: e ++ [quoteChar]) = p ++ '.' :: (e ++ [quoteChar]) := by
        rw [List.cons_append]
      rw [hsh]
      refine extOf_append (e ++ [quoteChar]) ?_ p
      intro hmem
      rcases List.mem_append.mp hmem with h1 | h1
      · exact hdot h1
      · simp only [List.mem_singleton] at h1
        exact absurd h1 (by decide)

theorem validated_gif_ext (v : JsStr) (hv : validateImage v = true)
    (hbranch : Emojify.isGifBranch (stripQuotes (jsTrim v)) = true) :
    extOf (stripQuotes (jsTrim v)) = gifChars := by
  unfold validateImage at hv
  rw [List.any_eq_true] at hv
  obtain ⟨e, he, hor⟩ := hv
  rw [Bool.or_eq_true, decide_eq_true_iff, decide_eq_true_iff] at hor
  have hdot : '.' ∉ e := by fin_cases he <;> decide
  have hq : quoteChar ∉ e := by fin_cases he <;> decide
  have hne : e ≠ [] := by fin_cases he <;> decide
  have hext := extOf_strip_suffix e hdot hq hne (jsTrim v)
  have hcases : extOf (stripQuotes (jsTrim v)) = e
      ∨ extOf (stripQuotes (jsTrim v)) = e ++ [quoteChar] := by
    rcases hor with h1 | h1
    · exact Or.inl (hext.1 h1)
    · exact hext.2 h1
  unfold Emojify.isGifBranch at hbranch
  rw [decide_eq_true_iff] at hbranch
  rcases hcases with hcase | hcase
  · rw [hcase] at hbranch ⊢
    fin_cases he <;> revert hbranch <;> decide
  · rw [hcase] at hbranch
    exfalso
    fin_cases he <;> revert hbranch <;> decide

/-- C7.  Every tile the grid partition emits for a run whose extension is
gif, and every masked frame the mask variant builds for such a run, has
posterization to 15 levels as the final recorded pipeline step,
unconditionally and regardless of the user-chosen filters; when the
extension is not gif, neither operation ever adds that posterize step.
Moreover, for every locator accepted by validation, whenever the animated
branch is taken (`ext.toLowerCase() === 'gif'` after quote stripping), the
extension passed down is literally gif, so the posterize step fires on
every animated-gif run. -/
theorem gif_posterize_final :
    (∀ (image : Image) (wp hp : Nat) (mode : JsStr) (t : Image),
        t ∈ Emojify.splitFrame image wp hp gifChars mode →
        t.ops.getLast? = some (Op.posterizeOp (some 15)))
    ∧ (∀ (image : Image) (wp hp : Nat) (ext mode : JsStr) (t : Image),
        ext ≠ gifChars → t ∈ Emojify.splitFrame image wp hp ext mode →
        Op.posterizeOp (some 15) ∉ t.ops.drop image.ops.length)
    ∧ (∀ (image mask : Image) (mode : JsStr),
        (Masked.getImageWithMask image mask gifChars mode).ops.getLast? =
          some (Op.posterizeOp (some 15)))
    ∧ (∀ (image mask : Image) (ext mode : JsStr), ext ≠ gifChars →
        Op.posterizeOp (some 15) ∉
          (Masked.getImageWithMask image mask ext mode).ops.drop image.ops.length)
    ∧ (∀ v : JsStr, validateImage v = true →
        Emojify.isGifBranch (stripQuotes (jsTrim v)) = true →
        extOf (stripQuotes (jsTrim v)) = gifChars) := by
  refine ⟨?_, ?_, ?_, ?_, fun v hv hb => validated_gif_ext v hv hb⟩
  · intro image wp hp mode t ht
    rw [splitFrame_eq_tileAt, List.mem_flatten] at ht
    obtain ⟨row, hrow, htrow⟩ := ht
    rw [List.mem_map] at hrow
    obtain ⟨y, _, rfl⟩ := hrow
    rw [List.mem_map] at htrow
    obtain ⟨x, _, rfl⟩ := htrow
    unfold Emojify.tileAt
    rw [if_pos rfl]
    exact List.getLast?_concat _
  · intro image wp hp ext mode t hne ht
    rw [splitFrame_eq_tileAt, List.mem_flatten] at ht
    obtain ⟨row, hrow, htrow⟩ := ht
    rw [List.mem_map] at hrow
    obtain ⟨y, _, rfl⟩ := hrow
    rw [List.mem_map] at htrow
    obtain ⟨x, _, rfl⟩ := htrow
    unfold Emojify.tileAt
    rw [if_neg hne]
    show Op.posterizeOp (some 15) ∉
      ((image.ops ++ [Op.resizeOp mode (wp * Emojify.SIZE) (hp * Emojify.SIZE)]) ++
        [Op.cropOp (x * Emojify.SIZE) (y * Emojify.SIZE) Emojify.SIZE Emojify.SIZE]).drop
        image.ops.length
    rw [List.append_assoc, List.drop_left]
    simp
  · intro image mask mode
    unfold Masked.getImageWithMask
    rw [if_pos rfl]
    exact List.getLast?_concat _
  · intro image mask ext mode hne
    unfold Masked.getImageWithMask
    rw [if_neg hne]
    show Op.posterizeOp (some 15) ∉
      (((image.ops ++ [Op.resizeOp mode Masked.SIZE Masked.SIZE]) ++
        [Op.cropOp 0 0 Masked.SIZE Masked.SIZE]) ++ [Op.maskOp 0 0]).drop
        image.ops.length
    rw [List.append_assoc, List.append_assoc, List.drop_left]
    simp

/-- Witness for C7 at concrete inputs: the single gif tile of a 1 by 1 grid
ends in posterize 15; the png tile adds no posterize step; the masked gif
frame ends in posterize 15; and the validated locator a.gif takes the
animated branch with extension exactly gif. -/
theorem gif_posterize_final_witness :
    (Emojify.tileAt ⟨64, 64, []⟩ 1 1 gifChars ("resize".toList) 0 0).ops.getLast? =
        some (Op.posterizeOp (some 15))
    ∧ Op.posterizeOp (some 15) ∉
        (Emojify.tileAt ⟨64, 64, []⟩ 1 1 ("png".toList) ("resize".toList) 0 0).ops.drop 0
    ∧ (Masked.getImageWithMask ⟨64, 64, []⟩ ⟨64, 64, []⟩ gifChars ("resize".toList)).ops.getLast? =
        some (Op.posterizeOp (some 15))
    ∧ extOf (stripQuotes (jsTrim ("a.gif".toList))) = gifChars := by
  refine ⟨?_, ?_, ?_, ?_⟩
  · exact gif_posterize_final.1 ⟨64, 64, []⟩ 1 1 ("resize".toList) _ (by decide)
  · exact gif_posterize_final.2.1 ⟨64, 64, []⟩ 1 1 ("png".toList) ("resize".toList) _
      (by decide) (by decide)
  · exact gif_posterize_final.2.2.1 ⟨64, 64, []⟩ ⟨64, 64, []⟩ ("resize".toList)
  · exact gif_posterize_final.2.2.2.2 ("a.gif".toList) (by decide) (by decide)
